import Mathlib

/-!
Verification of the ring-buffer simulation repository: a shallow embedding of
the `RingBuffer` class (ring_buffer.py), the time bookkeeping of
`SignalGenerator` (ring_buffer.py), the `stop` lifecycle of `SignalGenerator`,
and the waveform callables `SignalFunctions.MySin` and
`SignalFunctions.DeltaUpDown` (main.py), together with theorems settling the
specification claims about them.

Numeric samples are modelled generically: the buffer never computes with its
elements, it only moves them, so the element type is a parameter `α`
(instantiated with `ℤ` in concrete examples and with `ℚ`/`ℝ` where the
waveform mathematics needs it).
-/

namespace RingBufferSim

variable {α : Type}

/-- State of `RingBuffer` (ring_buffer.py, lines 8-14): fixed `size`,
the backing array `buffer`, and the write index `write_ptr`.
The `threading.Lock` field has no sequential content and is omitted. -/
structure RingBuffer (α : Type) where
  size : ℕ
  buffer : List α
  write_ptr : ℕ
  deriving Repr, DecidableEq

/-- `RingBuffer.__init__(size)`: `buffer = np.zeros(size)`, `write_ptr = 0`. -/
def RingBuffer.init (α : Type) [Zero α] (size : ℕ) : RingBuffer α :=
  ⟨size, List.replicate size 0, 0⟩

/-- Python slice assignment `l[s : s + len(d)] = d` on a list, assuming the
slice fits (`s + len(d) <= len(l)`), as every use in `RingBuffer.write` does. -/
def setSlice (l : List α) (s : ℕ) (d : List α) : List α :=
  l.take s ++ d ++ l.drop (s + d.length)

/-- `RingBuffer.write(data)` (ring_buffer.py, lines 17-36).
`data[-size:]` is `data.drop (n - size)` for `n ≥ size`;
`buffer[write_ptr:] = data[:first_part]` and `buffer[0:end_ptr] = data[first_part:]`
are the two `setSlice` calls of the wrap branch. -/
def RingBuffer.write (rb : RingBuffer α) (data : List α) : RingBuffer α :=
  let n := data.length
  if n ≥ rb.size then
    { rb with buffer := data.drop (n - rb.size), write_ptr := 0 }
  else
    let end_ptr := (rb.write_ptr + n) % rb.size
    if end_ptr < rb.write_ptr then
      let first_part := rb.size - rb.write_ptr
      let b1 := setSlice rb.buffer rb.write_ptr (data.take first_part)
      let b2 := setSlice b1 0 (data.drop first_part)
      { rb with buffer := b2, write_ptr := end_ptr }
    else
      { rb with buffer := setSlice rb.buffer rb.write_ptr data, write_ptr := end_ptr }

/-- `RingBuffer.read_latest(num_samples)` (ring_buffer.py, lines 38-49).
`(write_ptr - num_samples) % size` is Python modulo on possibly negative
operands, i.e. `Int.emod`; `none` models the `ValueError` raise. -/
def RingBuffer.read_latest (rb : RingBuffer α) (num_samples : ℕ) : Option (List α) :=
  if num_samples > rb.size then none
  else
    let start := (((rb.write_ptr : ℤ) - num_samples) % (rb.size : ℤ)).toNat
    if start + num_samples ≤ rb.size then
      some ((rb.buffer.drop start).take num_samples)
    else
      some (rb.buffer.drop start ++ rb.buffer.take (start + num_samples - rb.size))

/-- The buffer contents reachable from a write history: every chunk of `hs`
written in order into a freshly initialised buffer of capacity `size`. -/
def RingBuffer.reach (α : Type) [Zero α] (size : ℕ) (hs : List (List α)) : RingBuffer α :=
  hs.foldl RingBuffer.write (RingBuffer.init α size)

/-- The logical (chronological) content of the buffer: oldest slot first,
obtained by rotating the storage so it ends just before `write_ptr`. -/
def RingBuffer.view (rb : RingBuffer α) : List α :=
  rb.buffer.drop rb.write_ptr ++ rb.buffer.take rb.write_ptr

/-- The last `n` elements of a list (all of it when `n ≥ length`). -/
def lastN (n : ℕ) (l : List α) : List α :=
  l.drop (l.length - n)

/-- Well-formedness of a buffer state: positive capacity, storage of exactly
`size` slots, cursor strictly inside the storage. -/
def RingBuffer.wf (rb : RingBuffer α) : Prop :=
  0 < rb.size ∧ rb.buffer.length = rb.size ∧ rb.write_ptr < rb.size

/-- `np.arange(0, stop, step)` for positive `step`: the `⌈stop / step⌉` values
`0, step, 2*step, ...` strictly below `stop`. -/
def arange0 (stop step : ℚ) : List ℚ :=
  (List.range ⌈stop / step⌉.toNat).map (fun (j : ℕ) => (j : ℚ) * step)

/-- The time vector built by `SignalGenerator._generate_samples`
(ring_buffer.py, line 167): `np.arange(0, duration, 1/sample_rate) + time_offset`. -/
def timeVec (time_offset duration sample_rate : ℚ) : List ℚ :=
  (arange0 duration (1 / sample_rate)).map (fun x => x + time_offset)

/-- `self.time_offset` after `N` completed `_generate_samples(duration)` cycles,
starting from the constructor value `0.0`; each cycle does
`self.time_offset += duration` (ring_buffer.py, line 170). -/
def offsetAfter (duration : ℚ) : ℕ → ℚ
  | 0 => 0
  | N + 1 => offsetAfter duration N + duration

/-- The time vector as the specification words it (§4.2): the values
`timeOffset + k * (1/sampleRate)` for `k = 0 .. floor(duration * sampleRate) - 1`.
Stated from the spec only, to be compared with `timeVec` from the source. -/
def timeVecSpecFloor (time_offset duration sample_rate : ℚ) : List ℚ :=
  (List.range ⌊duration * sample_rate⌋.toNat).map
    (fun (j : ℕ) => time_offset + (j : ℚ) * (1 / sample_rate))

/-- Status of the daemon thread spawned by `SignalGenerator.start`. Its loop
is `while self.running: ...`, so it is `finished` once it observes
`running = false` at the top of an iteration. -/
inductive ThreadState where
  | alive : ThreadState
  | finished : ThreadState
  deriving Repr, DecidableEq

/-- Lifecycle state of `SignalGenerator`: the `running` flag and the `thread`
attribute (absent, i.e. `none`, until `start` is first called). -/
structure SignalGenerator where
  running : Bool
  thread : Option ThreadState
  deriving Repr, DecidableEq

/-- `SignalGenerator.__init__`: `running = False`, no `thread` attribute. -/
def SignalGenerator.init : SignalGenerator :=
  ⟨false, none⟩

/-- `SignalGenerator.start`: sets `running = True` and spawns the loop thread. -/
def SignalGenerator.start (g : SignalGenerator) : SignalGenerator :=
  { g with running := true, thread := some ThreadState.alive }

/-- `thread.join()`: returns the exited thread state, or `none` — modelling a
join that blocks forever — when the thread is alive and `running` is still
true, so its `while self.running` loop never exits. -/
def joinThread (th : ThreadState) (running : Bool) : Option ThreadState :=
  match th with
  | ThreadState.finished => some ThreadState.finished
  | ThreadState.alive => if running then none else some ThreadState.finished

/-- `SignalGenerator.stop` (ring_buffer.py, lines 190-193): set
`self.running = False`; then `if hasattr(self, 'thread'): self.thread.join()`.
`none` models an error or a hang, neither of which the theorems allow. -/
def SignalGenerator.stop (g : SignalGenerator) : Option SignalGenerator :=
  let g1 : SignalGenerator := { g with running := false }
  match g1.thread with
  | none => some g1
  | some th => (joinThread th g1.running).map fun th2 => { g1 with thread := some th2 }

/-- `SignalFunctions.MySin.__call__` (main.py, lines 15-18):
`np.sin(2 * np.pi * t * frequency) + offset`, elementwise over `t`. -/
noncomputable def MySin (frequency offset : ℝ) (t : List ℝ) : List ℝ :=
  t.map (fun x => Real.sin (2 * Real.pi * x * frequency) + offset)

/-- Python float modulo `x % T`: `x - T * floor(x / T)` (result signed like `T`). -/
def pymod (x T : ℚ) : ℚ :=
  x - T * ⌊x / T⌋

/-- The per-element branch chain of `SignalFunctions.DeltaUpDown.__call__`
(main.py, lines 43-55), applied to an already-reduced phase `x`. -/
def deltaUpDownSample (amplitude frequency offset edge_time : ℚ) (x : ℚ) : ℚ :=
  let T := 1 / frequency
  let edge0 := (1 / 10) * T
  let edge1 := (1 / 10 + edge_time) * T
  let edge2 := (6 / 10) * T
  let edge3 := (6 / 10 + edge_time) * T
  if x ≤ edge0 then 0 + offset
  else if x ≤ edge1 then
    let s := (x - edge0) / (edge1 - edge0)
    amplitude * (s ^ 2 * (3 - 2 * s)) + offset
  else if x ≤ edge2 then amplitude * 1 + offset
  else if x ≤ edge3 then
    let s := (x - edge2) / (edge3 - edge2)
    amplitude * (1 - s ^ 2 * (3 - 2 * s)) + offset
  else amplitude * 0 + offset

/-- `SignalFunctions.DeltaUpDown.__call__` (main.py, lines 31-56): reduce every
time value modulo the period `T = 1/frequency`, then build one sample per
element of `t_mod[:int(len(t_mod)/2)]` — only the first half of the input. -/
def DeltaUpDown (amplitude frequency offset edge_time : ℚ) (t : List ℚ) : List ℚ :=
  let T := 1 / frequency
  let t_mod := t.map (fun x => pymod x T)
  (t_mod.take (t_mod.length / 2)).map (deltaUpDownSample amplitude frequency offset edge_time)

example :
    RingBuffer.read_latest
      (RingBuffer.write (RingBuffer.write (RingBuffer.init ℤ 4) [1, 2, 3]) [4, 5]) 4 =
      some [2, 3, 4, 5] := by decide

example :
    RingBuffer.read_latest (RingBuffer.write (RingBuffer.init ℤ 4) [1, 2, 3, 4, 5, 6]) 4 =
      some [3, 4, 5, 6] := by decide

example : (RingBuffer.write (RingBuffer.init ℤ 4) [1, 2, 3, 4, 5, 6]).write_ptr = 0 := by decide

theorem wrap_cond_iff {p n C : ℕ} (hp : p < C) (hn : n < C) :
    (p + n) % C < p ↔ C ≤ p + n := by
  rcases Nat.lt_or_ge (p + n) C with h | h
  · rw [Nat.mod_eq_of_lt h]; omega
  · have h2 : (p + n) % C = p + n - C := by
      rw [Nat.mod_eq_sub_mod h, Nat.mod_eq_of_lt (by omega)]
    rw [h2]; omega

theorem mod_eq_sub_of_wrap {p n C : ℕ} (hp : p < C) (hn : n < C) (h : C ≤ p + n) :
    (p + n) % C = p + n - C := by
  rw [Nat.mod_eq_sub_mod h, Nat.mod_eq_of_lt (by omega)]

theorem setSlice_length (l d : List α) (s : ℕ) (h : s + d.length ≤ l.length) :
    (setSlice l s d).length = l.length := by
  simp [setSlice]; omega

theorem setSlice_getElem?_inside (l d : List α) (s i : ℕ)
    (hs : s ≤ l.length) (hi : i < d.length) :
    (setSlice l s d)[s + i]? = d[i]? := by
  have h1 : (l.take s).length = s := by simp [List.length_take]; omega
  rw [setSlice, List.append_assoc, List.getElem?_append, h1, if_neg (by omega)]
  have h2 : s + i - s = i := by omega
  rw [h2, List.getElem?_append, if_pos hi]

theorem setSlice_getElem?_ge (l d : List α) (s i : ℕ)
    (hs : s ≤ l.length) (hge : s + d.length ≤ i) :
    (setSlice l s d)[i]? = l[i]? := by
  have h1 : (l.take s).length = s := by simp [List.length_take]; omega
  rw [setSlice, List.append_assoc, List.getElem?_append, h1, if_neg (by omega),
    List.getElem?_append, if_neg (by omega), List.getElem?_drop]
  have h2 : s + d.length + (i - s - d.length) = i := by omega
  rw [h2]

theorem write_size (rb : RingBuffer α) (data : List α) :
    (rb.write data).size = rb.size := by
  simp only [RingBuffer.write]
  split
  · rfl
  · split <;> rfl

theorem write_length (rb : RingBuffer α) (data : List α)
    (hlen : rb.buffer.length = rb.size) (hp : rb.write_ptr < rb.size) :
    (rb.write data).buffer.length = rb.size := by
  rcases rb with ⟨C, buf, p⟩
  simp only at hlen hp
  simp only [RingBuffer.write]
  split
  · simp only [List.length_drop]; omega
  · rename_i hnlt
    have hn : data.length < C := by omega
    split
    · rename_i hw
      have hC : C ≤ p + data.length := (wrap_cond_iff hp hn).mp hw
      have htk : (data.take (C - p)).length = C - p := by
        simp [List.length_take]; omega
      have h1 : (setSlice buf p (data.take (C - p))).length = C := by
        rw [setSlice_length] <;> omega
      simp only
      rw [setSlice_length]
      · rw [h1]
      · simp only [List.length_drop, h1]; omega
    · rename_i hw
      have hlt : p + data.length < C := by
        rcases Nat.lt_or_ge (p + data.length) C with h | h
        · exact h
        · exact absurd ((wrap_cond_iff hp hn).mpr h) hw
      simp only
      rw [setSlice_length] <;> omega

theorem write_ptr_lt (rb : RingBuffer α) (data : List α)
    (hC : 0 < rb.size) :
    (rb.write data).write_ptr < rb.size := by
  simp only [RingBuffer.write]
  split
  · exact hC
  · split <;> exact Nat.mod_lt _ hC

theorem write_wf (rb : RingBuffer α) (data : List α) (h : rb.wf) :
    (rb.write data).wf ∧ (rb.write data).size = rb.size := by
  obtain ⟨hC, hlen, hp⟩ := h
  refine ⟨⟨?_, ?_, ?_⟩, write_size rb data⟩
  · rw [write_size]; exact hC
  · rw [write_size]; exact write_length rb data hlen hp
  · rw [write_size]; exact write_ptr_lt rb data hC

theorem foldl_write_wf (hs : List (List α)) (rb : RingBuffer α) (h : rb.wf) :
    (hs.foldl RingBuffer.write rb).wf ∧ (hs.foldl RingBuffer.write rb).size = rb.size := by
  induction hs generalizing rb with
  | nil => exact ⟨h, rfl⟩
  | cons d hs ih =>
    obtain ⟨hwf, hsz⟩ := write_wf rb d h
    obtain ⟨h1, h2⟩ := ih (rb.write d) hwf
    exact ⟨h1, h2.trans hsz⟩

theorem init_wf (α : Type) [Zero α] (C : ℕ) (hC : 0 < C) : (RingBuffer.init α C).wf :=
  ⟨hC, by simp [RingBuffer.init], hC⟩

theorem reach_wf (α : Type) [Zero α] (C : ℕ) (hC : 0 < C) (hs : List (List α)) :
    (RingBuffer.reach α C hs).wf ∧ (RingBuffer.reach α C hs).size = C :=
  foldl_write_wf hs _ (init_wf α C hC)

theorem lastN_length (n : ℕ) (l : List α) : (lastN n l).length = min n l.length := by
  simp [lastN]; omega

theorem lastN_of_length_le (n : ℕ) (l : List α) (h : l.length ≤ n) : lastN n l = l := by
  simp [lastN, Nat.sub_eq_zero_of_le h]

theorem lastN_append_of_le (n : ℕ) (s t : List α) (h : n ≤ t.length) :
    lastN n (s ++ t) = lastN n t := by
  unfold lastN
  rw [List.drop_append_eq_append_drop,
    List.drop_eq_nil_of_le (by simp [List.length_append]; omega)]
  simp only [List.nil_append, List.length_append]
  congr 1
  omega

theorem lastN_append_of_ge (n : ℕ) (s t : List α) (h : t.length ≤ n) :
    lastN n (s ++ t) = lastN (n - t.length) s ++ t := by
  unfold lastN
  rw [List.drop_append_eq_append_drop]
  simp only [List.length_append]
  congr 1
  · congr 1; omega
  · rw [show s.length + t.length - n - s.length = 0 by omega, List.drop_zero]

theorem lastN_lastN (m n : ℕ) (l : List α) (h : m ≤ n) :
    lastN m (lastN n l) = lastN m l := by
  unfold lastN
  rw [List.drop_drop]
  simp only [List.length_drop]
  congr 1
  omega

theorem lastN_absorb (n : ℕ) (s t : List α) :
    lastN n (lastN n s ++ t) = lastN n (s ++ t) := by
  rcases Nat.le_total n t.length with h | h
  · rw [lastN_append_of_le n _ t h, lastN_append_of_le n s t h]
  · rw [lastN_append_of_ge n _ t h, lastN_append_of_ge n s t h,
      lastN_lastN _ _ _ (by omega)]

theorem lastN_replicate (n C : ℕ) (x : α) (h : n ≤ C) :
    lastN n (List.replicate C x) = List.replicate n x := by
  unfold lastN
  rw [List.length_replicate, List.drop_replicate]
  congr 1
  omega

theorem view_length (rb : RingBuffer α) (hlen : rb.buffer.length = rb.size)
    (hp : rb.write_ptr < rb.size) : rb.view.length = rb.size := by
  simp [RingBuffer.view, List.length_take]; omega

theorem read_latest_start (rb : RingBuffer α) (n : ℕ) (hn : n ≤ rb.size) :
    ((((rb.write_ptr : ℤ) - n) % (rb.size : ℤ)).toNat) =
      (rb.write_ptr + rb.size - n) % rb.size := by
  have h2 : (((rb.write_ptr + rb.size - n) % rb.size : ℕ) : ℤ) =
      ((rb.write_ptr + rb.size - n : ℕ) : ℤ) % (rb.size : ℤ) := by
    push_cast
    rfl
  have h1 : ((rb.write_ptr + rb.size - n : ℕ) : ℤ) =
      ((rb.write_ptr : ℤ) - n) + (rb.size : ℤ) * 1 := by
    omega
  have h0 : ((rb.write_ptr : ℤ) - n) % (rb.size : ℤ) =
      (((rb.write_ptr + rb.size - n) % rb.size : ℕ) : ℤ) := by
    rw [h2, h1, Int.add_mul_emod_self_left]
  rw [h0, Int.toNat_natCast]

theorem read_latest_view (rb : RingBuffer α) (h : rb.wf) (n : ℕ) (hn : n ≤ rb.size) :
    rb.read_latest n = some (lastN n rb.view) := by
  obtain ⟨hC, hlen, hp⟩ := h
  have hA : (rb.buffer.drop rb.write_ptr).length = rb.size - rb.write_ptr := by
    simp [hlen]
  have hB : (rb.buffer.take rb.write_ptr).length = rb.write_ptr := by
    simp [List.length_take]; omega
  simp only [RingBuffer.read_latest, RingBuffer.view]
  rw [if_neg (by omega), read_latest_start rb n hn]
  rcases le_or_lt n rb.write_ptr with hnp | hnp
  · -- contiguous read strictly inside the storage
    have hs0 : (rb.write_ptr + rb.size - n) % rb.size = rb.write_ptr - n := by
      rw [Nat.mod_eq_sub_mod (by omega),
        show rb.write_ptr + rb.size - n - rb.size = rb.write_ptr - n from by omega,
        Nat.mod_eq_of_lt (by omega)]
    rw [hs0, if_pos (by omega)]
    congr 1
    unfold lastN
    conv_rhs =>
      rw [List.drop_append_eq_append_drop]
      simp only [List.length_append, hA, hB]
      rw [List.drop_eq_nil_of_le (by rw [hA]; omega), List.nil_append,
        show rb.size - rb.write_ptr + rb.write_ptr - n - (rb.size - rb.write_ptr) =
          rb.write_ptr - n from by omega]
    rw [List.take_drop, show rb.write_ptr - n + n = rb.write_ptr from by omega]
  · have hs0 : (rb.write_ptr + rb.size - n) % rb.size = rb.write_ptr + rb.size - n :=
      Nat.mod_eq_of_lt (by omega)
    rw [hs0]
    rcases Nat.eq_zero_or_pos rb.write_ptr with hp0 | hp0
    · -- cursor at zero: the window is the suffix of the raw storage
      rw [if_pos (by omega)]
      simp only [hp0, List.drop_zero, List.take_zero, List.append_nil, Nat.zero_add]
      congr 1
      unfold lastN
      rw [hlen, List.take_of_length_le (by simp [hlen]; omega)]
    · -- wrap-around read
      rw [if_neg (by omega)]
      congr 1
      rw [show rb.write_ptr + rb.size - n + n - rb.size = rb.write_ptr from by omega]
      unfold lastN
      rw [List.drop_append_eq_append_drop]
      simp only [List.length_append, hA, hB]
      rw [List.drop_drop,
        show rb.write_ptr + (rb.size - rb.write_ptr + rb.write_ptr - n) =
          rb.write_ptr + rb.size - n from by omega,
        show rb.size - rb.write_ptr + rb.write_ptr - n - (rb.size - rb.write_ptr) = 0
          from by omega,
        List.drop_zero]

theorem write_view_big (rb : RingBuffer α) (data : List α)
    (hn : rb.size ≤ data.length) :
    (rb.write data).view = lastN rb.size (rb.view ++ data) := by
  have hbuf : (rb.write data).buffer = data.drop (data.length - rb.size) := by
    simp only [RingBuffer.write]
    rw [if_pos (by omega : data.length ≥ rb.size)]
  have hptr : (rb.write data).write_ptr = 0 := by
    simp only [RingBuffer.write]
    rw [if_pos (by omega : data.length ≥ rb.size)]
  unfold RingBuffer.view
  rw [hbuf, hptr, List.drop_zero, List.take_zero, List.append_nil,
    lastN_append_of_le _ _ _ hn]
  rfl

theorem write_view_nowrap (rb : RingBuffer α) (data : List α)
    (hlen : rb.buffer.length = rb.size) (hp : rb.write_ptr < rb.size)
    (hlt : rb.write_ptr + data.length < rb.size) :
    (rb.write data).view = lastN rb.size (rb.view ++ data) := by
  have hA : (rb.buffer.drop rb.write_ptr).length = rb.size - rb.write_ptr := by
    simp [hlen]
  have hB : (rb.buffer.take rb.write_ptr).length = rb.write_ptr := by
    simp [List.length_take]; omega
  have hmod : (rb.write_ptr + data.length) % rb.size = rb.write_ptr + data.length :=
    Nat.mod_eq_of_lt hlt
  have hnw : ¬((rb.write_ptr + data.length) % rb.size < rb.write_ptr) := by
    rw [hmod]; omega
  have hbuf : (rb.write data).buffer = setSlice rb.buffer rb.write_ptr data := by
    simp only [RingBuffer.write]
    rw [if_neg (by omega), if_neg hnw]
  have hptr : (rb.write data).write_ptr = rb.write_ptr + data.length := by
    simp only [RingBuffer.write]
    rw [if_neg (by omega), if_neg hnw, hmod]
  have piece1 : (setSlice rb.buffer rb.write_ptr data).drop (rb.write_ptr + data.length) =
      rb.buffer.drop (rb.write_ptr + data.length) := by
    unfold setSlice
    rw [List.drop_append_eq_append_drop,
      List.drop_eq_nil_of_le (by simp [hB]),
      List.nil_append,
      show rb.write_ptr + data.length -
        (rb.buffer.take rb.write_ptr ++ data).length = 0 from by simp [hB],
      List.drop_zero]
  have piece2 : (setSlice rb.buffer rb.write_ptr data).take (rb.write_ptr + data.length) =
      rb.buffer.take rb.write_ptr ++ data := by
    unfold setSlice
    rw [List.take_append_eq_append_take,
      List.take_of_length_le (by simp [hB]),
      show rb.write_ptr + data.length -
        (rb.buffer.take rb.write_ptr ++ data).length = 0 from by simp [hB],
      List.take_zero, List.append_nil]
  have rhs_eq : lastN rb.size (rb.view ++ data) =
      rb.buffer.drop (rb.write_ptr + data.length) ++
        (rb.buffer.take rb.write_ptr ++ data) := by
    unfold RingBuffer.view
    rw [lastN_append_of_ge _ _ _ (by omega : data.length ≤ rb.size),
      lastN_append_of_ge _ _ _ (by rw [hB]; omega)]
    unfold lastN
    simp only [hA, hB]
    rw [show rb.size - rb.write_ptr -
        (rb.size - data.length - rb.write_ptr) = data.length from by omega,
      List.drop_drop, List.append_assoc]
  rw [rhs_eq]
  unfold RingBuffer.view
  rw [hbuf, hptr, piece1, piece2]

theorem write_view_wrap (rb : RingBuffer α) (data : List α)
    (hlen : rb.buffer.length = rb.size) (hp : rb.write_ptr < rb.size)
    (hn : data.length < rb.size) (hw : rb.size ≤ rb.write_ptr + data.length) :
    (rb.write data).view = lastN rb.size (rb.view ++ data) := by
  have hA : (rb.buffer.drop rb.write_ptr).length = rb.size - rb.write_ptr := by
    simp [hlen]
  have hB : (rb.buffer.take rb.write_ptr).length = rb.write_ptr := by
    simp [List.length_take]; omega
  have hmod : (rb.write_ptr + data.length) % rb.size =
      rb.write_ptr + data.length - rb.size :=
    mod_eq_sub_of_wrap hp hn hw
  have hwlt : (rb.write_ptr + data.length) % rb.size < rb.write_ptr := by
    rw [hmod]; omega
  have hbuf : (rb.write data).buffer =
      setSlice (setSlice rb.buffer rb.write_ptr (data.take (rb.size - rb.write_ptr))) 0
        (data.drop (rb.size - rb.write_ptr)) := by
    simp only [RingBuffer.write]
    rw [if_neg (by omega), if_pos hwlt]
  have hptr : (rb.write data).write_ptr = rb.write_ptr + data.length - rb.size := by
    simp only [RingBuffer.write]
    rw [if_neg (by omega), if_pos hwlt, hmod]
  have hfp : (data.take (rb.size - rb.write_ptr)).length = rb.size - rb.write_ptr := by
    simp [List.length_take]; omega
  have hb1 : setSlice rb.buffer rb.write_ptr (data.take (rb.size - rb.write_ptr)) =
      rb.buffer.take rb.write_ptr ++ data.take (rb.size - rb.write_ptr) := by
    unfold setSlice
    rw [hfp, show rb.write_ptr + (rb.size - rb.write_ptr) = rb.size from by omega,
      List.drop_eq_nil_of_le (by omega), List.append_nil]
  have he : (data.drop (rb.size - rb.write_ptr)).length =
      rb.write_ptr + data.length - rb.size := by
    simp; omega
  have hb2 : (rb.write data).buffer =
      data.drop (rb.size - rb.write_ptr) ++
        ((rb.buffer.take rb.write_ptr).drop (rb.write_ptr + data.length - rb.size) ++
          data.take (rb.size - rb.write_ptr)) := by
    rw [hbuf, hb1]
    unfold setSlice
    rw [List.take_zero, List.nil_append,
      show 0 + (data.drop (rb.size - rb.write_ptr)).length =
        rb.write_ptr + data.length - rb.size from by rw [he]; omega,
      List.drop_append_eq_append_drop,
      show rb.write_ptr + data.length - rb.size - (rb.buffer.take rb.write_ptr).length = 0
        from by rw [hB]; omega,
      List.drop_zero]
  have hview1 : (rb.write data).buffer.drop (rb.write_ptr + data.length - rb.size) =
      (rb.buffer.take rb.write_ptr).drop (rb.write_ptr + data.length - rb.size) ++
        data.take (rb.size - rb.write_ptr) := by
    rw [hb2, List.drop_append_eq_append_drop,
      List.drop_eq_nil_of_le (by rw [he]), List.nil_append,
      show rb.write_ptr + data.length - rb.size -
        (data.drop (rb.size - rb.write_ptr)).length = 0 from by rw [he]; omega,
      List.drop_zero]
  have hview2 : (rb.write data).buffer.take (rb.write_ptr + data.length - rb.size) =
      data.drop (rb.size - rb.write_ptr) := by
    rw [hb2, List.take_append_eq_append_take,
      List.take_of_length_le (by rw [he]),
      show rb.write_ptr + data.length - rb.size -
        (data.drop (rb.size - rb.write_ptr)).length = 0 from by rw [he]; omega,
      List.take_zero, List.append_nil]
  have rhs_eq : lastN rb.size (rb.view ++ data) =
      (rb.buffer.take rb.write_ptr).drop (rb.write_ptr + data.length - rb.size) ++ data := by
    unfold RingBuffer.view
    rw [lastN_append_of_ge _ _ _ (by omega : data.length ≤ rb.size),
      lastN_append_of_le _ _ _ (by rw [hB]; omega)]
    unfold lastN
    simp only [hB]
    rw [show rb.write_ptr - (rb.size - data.length) =
      rb.write_ptr + data.length - rb.size from by omega]
  rw [rhs_eq]
  unfold RingBuffer.view
  rw [hptr, hview1, hview2, List.append_assoc, List.take_append_drop]

theorem write_view (rb : RingBuffer α) (h : rb.wf) (data : List α) :
    (rb.write data).view = lastN rb.size (rb.view ++ data) := by
  obtain ⟨hC, hlen, hp⟩ := h
  rcases le_or_lt rb.size data.length with hn | hn
  · exact write_view_big rb data hn
  · rcases le_or_lt rb.size (rb.write_ptr + data.length) with hw | hlt
    · exact write_view_wrap rb data hlen hp hn hw
    · exact write_view_nowrap rb data hlen hp hlt

theorem foldl_write_view (hs : List (List α)) (rb : RingBuffer α) (h : rb.wf) :
    (hs.foldl RingBuffer.write rb).view = lastN rb.size (rb.view ++ hs.flatten) := by
  induction hs generalizing rb with
  | nil =>
    simp only [List.foldl_nil, List.flatten_nil, List.append_nil]
    exact (lastN_of_length_le _ _ (le_of_eq (view_length rb h.2.1 h.2.2))).symm
  | cons d hs ih =>
    obtain ⟨hwf, hsz⟩ := write_wf rb d h
    simp only [List.foldl_cons, List.flatten_cons]
    rw [ih (rb.write d) hwf, hsz, write_view rb h d, lastN_absorb, List.append_assoc]

theorem reach_view (α : Type) [Zero α] (C : ℕ) (hC : 0 < C) (hs : List (List α)) :
    (RingBuffer.reach α C hs).view = lastN C (List.replicate C 0 ++ hs.flatten) := by
  unfold RingBuffer.reach
  rw [foldl_write_view hs _ (init_wf α C hC)]
  simp [RingBuffer.init, RingBuffer.view]

theorem write_small_copy (rb : RingBuffer α) (data : List α)
    (hlen : rb.buffer.length = rb.size) (hp : rb.write_ptr < rb.size)
    (hn : data.length < rb.size) (i : ℕ) (hi : i < data.length) :
    (rb.write data).buffer[(rb.write_ptr + i) % rb.size]? = data[i]? := by
  rcases le_or_lt rb.size (rb.write_ptr + data.length) with hw | hlt
  · have hwlt : (rb.write_ptr + data.length) % rb.size < rb.write_ptr := by
      rw [mod_eq_sub_of_wrap hp hn hw]; omega
    have hbuf : (rb.write data).buffer =
        setSlice (setSlice rb.buffer rb.write_ptr (data.take (rb.size - rb.write_ptr))) 0
          (data.drop (rb.size - rb.write_ptr)) := by
      simp only [RingBuffer.write]
      rw [if_neg (by omega), if_pos hwlt]
    have hfp : (data.take (rb.size - rb.write_ptr)).length = rb.size - rb.write_ptr := by
      simp [List.length_take]; omega
    rw [hbuf]
    rcases lt_or_ge i (rb.size - rb.write_ptr) with hifp | hifp
    · have hmod : (rb.write_ptr + i) % rb.size = rb.write_ptr + i :=
        Nat.mod_eq_of_lt (by omega)
      rw [hmod, setSlice_getElem?_ge _ _ 0 _ (by omega) (by simp; omega),
        setSlice_getElem?_inside _ _ _ _ (by omega) (by rw [hfp]; omega),
        List.getElem?_take_of_lt hifp]
    · have hmod : (rb.write_ptr + i) % rb.size = rb.write_ptr + i - rb.size := by
        rw [Nat.mod_eq_sub_mod (by omega), Nat.mod_eq_of_lt (by omega)]
      rw [hmod,
        show rb.write_ptr + i - rb.size = 0 + (i - (rb.size - rb.write_ptr)) from by omega,
        setSlice_getElem?_inside _ _ 0 _ (by omega) (by simp; omega),
        List.getElem?_drop]
      congr 1
      omega
  · have hnw : ¬((rb.write_ptr + data.length) % rb.size < rb.write_ptr) := by
      rw [Nat.mod_eq_of_lt hlt]; omega
    have hbuf : (rb.write data).buffer = setSlice rb.buffer rb.write_ptr data := by
      simp only [RingBuffer.write]
      rw [if_neg (by omega), if_neg hnw]
    have hmod : (rb.write_ptr + i) % rb.size = rb.write_ptr + i :=
      Nat.mod_eq_of_lt (by omega)
    rw [hbuf, hmod, setSlice_getElem?_inside _ _ _ _ (by omega) hi]

theorem write_ptr_eq (rb : RingBuffer α) (data : List α) (hn : data.length < rb.size) :
    (rb.write data).write_ptr = (rb.write_ptr + data.length) % rb.size := by
  simp only [RingBuffer.write]
  rw [if_neg (by omega)]
  split <;> rfl

/-- C1: writing `N < capacity` values in any well-formed (hence any reachable)
state copies value `i` into storage slot `(writeCursor + i) mod capacity` —
i.e. starting at `writeCursor` and wrapping to index 0 past the end — and
leaves `writeCursor` at `(writeCursor + N) mod capacity`; concretely, in a
capacity-4 buffer, writing `[1,2,3]` then `[4,5]` makes `read_latest 4`
return `[2,3,4,5]`. -/
theorem claim_C1 :
    (∀ (α : Type) (rb : RingBuffer α) (data : List α),
      rb.buffer.length = rb.size → rb.write_ptr < rb.size → data.length < rb.size →
      (∀ i, i < data.length →
        (rb.write data).buffer[(rb.write_ptr + i) % rb.size]? = data[i]?) ∧
      (rb.write data).write_ptr = (rb.write_ptr + data.length) % rb.size) ∧
    RingBuffer.read_latest
      (RingBuffer.write (RingBuffer.write (RingBuffer.init ℤ 4) [1, 2, 3]) [4, 5]) 4 =
      some [2, 3, 4, 5] :=
  ⟨fun _ rb data hlen hp hn =>
    ⟨fun i hi => write_small_copy rb data hlen hp hn i hi, write_ptr_eq rb data hn⟩,
   by decide⟩

/-- C1 witness: the general statement applied to a fresh capacity-4 buffer
and the chunk `[5, 6]`. -/
theorem claim_C1_witness :
    (∀ i, i < ([5, 6] : List ℤ).length →
      ((RingBuffer.init ℤ 4).write [5, 6]).buffer[((RingBuffer.init ℤ 4).write_ptr + i) %
        (RingBuffer.init ℤ 4).size]? = ([5, 6] : List ℤ)[i]?) ∧
    ((RingBuffer.init ℤ 4).write [5, 6]).write_ptr =
      ((RingBuffer.init ℤ 4).write_ptr + ([5, 6] : List ℤ).length) %
        (RingBuffer.init ℤ 4).size :=
  claim_C1.1 ℤ (RingBuffer.init ℤ 4) [5, 6] (by decide) (by decide) (by decide)

/-- C2: writing `N ≥ capacity` values in any state replaces the storage with
the last `capacity` values of the chunk and resets `writeCursor` to 0;
concretely, writing `[1,2,3,4,5,6]` into a fresh capacity-4 buffer makes
`read_latest 4` return `[3,4,5,6]` with `writeCursor = 0`. -/
theorem claim_C2 :
    (∀ (α : Type) (rb : RingBuffer α) (data : List α),
      rb.size ≤ data.length →
      (rb.write data).buffer = lastN rb.size data ∧ (rb.write data).write_ptr = 0) ∧
    (RingBuffer.read_latest (RingBuffer.write (RingBuffer.init ℤ 4) [1, 2, 3, 4, 5, 6]) 4 =
        some [3, 4, 5, 6] ∧
      (RingBuffer.write (RingBuffer.init ℤ 4) [1, 2, 3, 4, 5, 6]).write_ptr = 0) := by
  refine ⟨fun α rb data hn => ⟨?_, ?_⟩, by decide, by decide⟩
  · simp only [RingBuffer.write]
    rw [if_pos (by omega : data.length ≥ rb.size)]
    rfl
  · simp only [RingBuffer.write]
    rw [if_pos (by omega : data.length ≥ rb.size)]

/-- C2 witness: the general statement applied to a fresh capacity-4 buffer
and the oversized chunk `[9, 8, 7, 6, 5]`. -/
theorem claim_C2_witness :
    ((RingBuffer.init ℤ 4).write [9, 8, 7, 6, 5]).buffer = lastN 4 [9, 8, 7, 6, 5] ∧
    ((RingBuffer.init ℤ 4).write [9, 8, 7, 6, 5]).write_ptr = 0 :=
  claim_C2.1 ℤ (RingBuffer.init ℤ 4) [9, 8, 7, 6, 5] (by decide)

/-- C3: a single chunk of `1 ≤ k ≤ C` values written into a fresh buffer is
returned verbatim by `read_latest k`; and in every reachable state (any write
history `hs` into a fresh buffer) `read_latest n` returns the last `n` values
of the concatenated history, oldest first, whenever at least `n` values were
ever written and `1 ≤ n ≤ C`. -/
theorem claim_C3 :
    (∀ (C : ℕ) (a : List ℤ), 1 ≤ a.length → a.length ≤ C →
      ((RingBuffer.init ℤ C).write a).read_latest a.length = some a) ∧
    (∀ (C : ℕ) (hs : List (List ℤ)) (n : ℕ), 0 < C → 1 ≤ n → n ≤ C →
      n ≤ hs.flatten.length →
      (RingBuffer.reach ℤ C hs).read_latest n = some (lastN n hs.flatten)) := by
  have main : ∀ (C : ℕ) (hs : List (List ℤ)) (n : ℕ), 0 < C → 1 ≤ n → n ≤ C →
      n ≤ hs.flatten.length →
      (RingBuffer.reach ℤ C hs).read_latest n = some (lastN n hs.flatten) := by
    intro C hs n hC hn1 hnC hnf
    obtain ⟨hwf, hsz⟩ := reach_wf ℤ C hC hs
    rw [read_latest_view _ hwf n (by rw [hsz]; omega), reach_view ℤ C hC hs,
      lastN_lastN _ _ _ hnC, lastN_append_of_le _ _ _ hnf]
  refine ⟨fun C a h1 h2 => ?_, main⟩
  have h3 := main C [a] a.length (by omega) h1 h2 (by simp)
  rw [show ([a] : List (List ℤ)).flatten = a from by simp] at h3
  rw [lastN_of_length_le _ _ le_rfl] at h3
  simpa [RingBuffer.reach] using h3

/-- C3 witness: writing `[1, 2, 3]` into a fresh capacity-4 buffer and reading
3 values returns `[1, 2, 3]`. -/
theorem claim_C3_witness :
    ((RingBuffer.init ℤ 4).write [1, 2, 3]).read_latest ([1, 2, 3] : List ℤ).length =
      some [1, 2, 3] :=
  claim_C3.1 4 [1, 2, 3] (by decide) (by decide)

/-- C5: `read_latest n` fails (with the single `ValueError`, the spec's
`OutOfRange`) exactly when `n` exceeds the capacity; in particular
`read_latest (capacity+1)` fails and `read_latest capacity` succeeds. The
model of `read_latest` is a pure function of the state, reflecting that the
source raises before touching anything and never mutates the buffer. -/
theorem claim_C5 :
    ∀ (α : Type) (rb : RingBuffer α) (n : ℕ),
      (rb.read_latest n = none ↔ rb.size < n) ∧
      rb.read_latest (rb.size + 1) = none ∧
      (rb.read_latest rb.size).isSome = true := by
  intro α rb n
  refine ⟨?_, ?_, ?_⟩
  · simp only [RingBuffer.read_latest]
    split
    · rename_i h
      simp [h]
    · rename_i h
      split
      · simp; omega
      · simp; omega
  · simp only [RingBuffer.read_latest]
    rw [if_pos (by omega)]
  · simp only [RingBuffer.read_latest]
    rw [if_neg (by omega)]
    split <;> rfl

/-- C6: a single `write` from any well-formed state preserves the capacity,
the storage length and the cursor bound, and hence after every finite
sequence of writes into a fresh positive-capacity buffer the storage length
equals the capacity and `0 ≤ writeCursor < capacity`. -/
theorem claim_C6 :
    (∀ (α : Type) (rb : RingBuffer α) (data : List α),
      0 < rb.size → rb.buffer.length = rb.size → rb.write_ptr < rb.size →
      (rb.write data).size = rb.size ∧ (rb.write data).buffer.length = rb.size ∧
        (rb.write data).write_ptr < rb.size) ∧
    (∀ (C : ℕ) (hs : List (List ℤ)), 0 < C →
      (RingBuffer.reach ℤ C hs).buffer.length = C ∧
        (RingBuffer.reach ℤ C hs).write_ptr < C) := by
  constructor
  · intro α rb data hC hlen hp
    exact ⟨write_size rb data, write_length rb data hlen hp, write_ptr_lt rb data hC⟩
  · intro C hs hC
    obtain ⟨⟨_, h2, h3⟩, hsz⟩ := reach_wf ℤ C hC hs
    exact ⟨h2.trans hsz, lt_of_lt_of_eq h3 hsz⟩

/-- C6 witness: the preservation statement applied to a fresh capacity-4
buffer and the chunk `[1, 2, 3, 4, 5]`. -/
theorem claim_C6_witness :
    ((RingBuffer.init ℤ 4).write [1, 2, 3, 4, 5]).size = (RingBuffer.init ℤ 4).size ∧
    ((RingBuffer.init ℤ 4).write [1, 2, 3, 4, 5]).buffer.length =
      (RingBuffer.init ℤ 4).size ∧
    ((RingBuffer.init ℤ 4).write [1, 2, 3, 4, 5]).write_ptr < (RingBuffer.init ℤ 4).size :=
  claim_C6.1 ℤ (RingBuffer.init ℤ 4) [1, 2, 3, 4, 5] (by decide) (by decide) (by decide)

/-- C10: on a freshly constructed buffer that was never written, `read_latest n`
succeeds for every `1 ≤ n ≤ C` and returns exactly `n` zeros; and whenever
`read_latest n` succeeds on a well-formed buffer with `n ≤ capacity` it
returns exactly `n` values. -/
theorem claim_C10 :
    (∀ (C n : ℕ), 0 < C → 1 ≤ n → n ≤ C →
      (RingBuffer.init ℤ C).read_latest n = some (List.replicate n 0)) ∧
    (∀ (α : Type) (rb : RingBuffer α) (n : ℕ) (res : List α),
      rb.wf → n ≤ rb.size → rb.read_latest n = some res → res.length = n) := by
  constructor
  · intro C n hC h1 hn
    rw [read_latest_view _ (init_wf ℤ C hC) n hn]
    congr 1
    rw [show (RingBuffer.init ℤ C).view = List.replicate C 0 from
      by simp [RingBuffer.init, RingBuffer.view]]
    exact lastN_replicate n C 0 hn
  · intro α rb n res hwf hn hread
    rw [read_latest_view rb hwf n hn] at hread
    obtain rfl : res = lastN n rb.view := (Option.some_inj.mp hread).symm
    rw [lastN_length, view_length rb hwf.2.1 hwf.2.2]
    omega

/-- C10 witness: reading 2 values from a fresh capacity-4 buffer returns
two zeros. -/
theorem claim_C10_witness :
    (RingBuffer.init ℤ 4).read_latest 2 = some (List.replicate 2 0) :=
  claim_C10.1 4 2 (by decide) (by decide) (by decide)

/-- C7 counterexample: with `duration = 1` and `sampleRate = 3/2`, the
generator builds `np.arange(0, 1, 2/3)`, which has `ceil(3/2) = 2` entries
`[0, 2/3]`, while the specification's `j = 0 .. floor(d*r) - 1` prescribes a
single entry — so the claim's time vector is wrong as stated. -/
theorem claim_C7_cex :
    (timeVec 0 1 (3 / 2)).length = 2 ∧ (timeVecSpecFloor 0 1 (3 / 2)).length = 1 := by
  constructor
  · simp only [timeVec, arange0, List.length_map, List.length_range]
    rw [show (1 : ℚ) / (1 / (3 / 2)) = 3 / 2 from by norm_num,
      show ⌈(3 : ℚ) / 2⌉ = 2 from by rw [Int.ceil_eq_iff]; norm_num]
    rfl
  · simp only [timeVecSpecFloor, List.length_map, List.length_range]
    rw [show (1 : ℚ) * (3 / 2) = 3 / 2 from by norm_num,
      show ⌊(3 : ℚ) / 2⌋ = 1 from by rw [Int.floor_eq_iff]; norm_num]
    rfl

/-- C7 (amended): for positive `duration` and `sampleRate`, `timeOffset` after
`N` completed cycles equals `N * duration`; the time vector of cycle `k`
(counting from 0) consists of the values `k*d + j*(1/sampleRate)` for
`j = 0 .. ceil(d * sampleRate) - 1` (ceiling, not floor — they agree exactly
when `d * sampleRate` is an integer); and every entry of cycle `k` lies in
`[k*d, (k+1)*d)`, so consecutive cycles neither overlap nor leave a gap. -/
theorem claim_C7 :
    ∀ (d r : ℚ), 0 < d → 0 < r → ∀ (N k : ℕ),
      offsetAfter d N = N * d ∧
      timeVec (offsetAfter d k) d r =
        (List.range ⌈d * r⌉.toNat).map (fun (j : ℕ) => (k : ℚ) * d + (j : ℚ) * (1 / r)) ∧
      ∀ x ∈ timeVec (offsetAfter d k) d r, (k : ℚ) * d ≤ x ∧ x < ((k : ℚ) + 1) * d := by
  intro d r hd hr N k
  have hoff : ∀ M : ℕ, offsetAfter d M = M * d := by
    intro M
    induction M with
    | zero => simp [offsetAfter]
    | succ M ih =>
      rw [offsetAfter, ih]
      push_cast
      ring
  have hdr : d / (1 / r) = d * r := by
    field_simp
  have hvec : timeVec (offsetAfter d k) d r =
      (List.range ⌈d * r⌉.toNat).map (fun (j : ℕ) => (k : ℚ) * d + (j : ℚ) * (1 / r)) := by
    rw [timeVec, arange0, hdr, hoff k, List.map_map]
    refine List.map_congr_left fun j hj => ?_
    simp only [Function.comp_apply]
    ring
  refine ⟨hoff N, hvec, ?_⟩
  intro x hx
  rw [hvec] at hx
  simp only [List.mem_map, List.mem_range] at hx
  obtain ⟨j, hjlt, rfl⟩ := hx
  have hjZ : (j : ℤ) < ⌈d * r⌉ := by omega
  have hceil := Int.ceil_lt_add_one (d * r)
  have h1 : (j : ℚ) ≤ (⌈d * r⌉ : ℚ) - 1 := by
    have h1q : ((j : ℤ) : ℚ) + 1 ≤ ((⌈d * r⌉ : ℤ) : ℚ) := by
      exact_mod_cast hjZ
    push_cast at h1q ⊢
    linarith
  have h2 : (j : ℚ) * (1 / r) < d := by
    rw [mul_one_div, div_lt_iff₀ hr]
    linarith
  constructor
  · have h0 : 0 ≤ (j : ℚ) * (1 / r) := by positivity
    linarith
  · have h3 : ((k : ℚ) + 1) * d = (k : ℚ) * d + d := by ring
    linarith

/-- C7 witness: the amended statement applied to `d = 1`, `r = 2`, three
completed cycles and cycle index 2. -/
theorem claim_C7_witness :
    offsetAfter 1 3 = ((3 : ℕ) : ℚ) * 1 ∧
    timeVec (offsetAfter 1 2) 1 2 =
      (List.range ⌈(1 : ℚ) * 2⌉.toNat).map
        (fun (j : ℕ) => ((2 : ℕ) : ℚ) * 1 + (j : ℚ) * (1 / 2)) ∧
    ∀ x ∈ timeVec (offsetAfter 1 2) 1 2,
      ((2 : ℕ) : ℚ) * 1 ≤ x ∧ x < (((2 : ℕ) : ℚ) + 1) * 1 :=
  claim_C7 1 2 one_pos two_pos 3 2

/-- C8: `stop` always returns (it neither raises nor hangs, because it clears
`running` before joining, so the loop thread exits); running it twice in a row
succeeds both times; and on a generator whose `start` was never called it is a
no-op: the state already has `running = False` and no thread attribute, so
`stop` returns it unchanged. -/
theorem claim_C8 :
    (∀ g : SignalGenerator, ∃ g2, g.stop = some g2) ∧
    (∀ g : SignalGenerator, ∃ g2 g3, g.stop = some g2 ∧ g2.stop = some g3) ∧
    SignalGenerator.init.stop = some SignalGenerator.init := by
  refine ⟨?_, ?_, rfl⟩
  · intro g
    cases g with
    | mk run th =>
      cases th with
      | none => exact ⟨_, rfl⟩
      | some t =>
        cases t with
        | alive => exact ⟨_, rfl⟩
        | finished => exact ⟨_, rfl⟩
  · intro g
    cases g with
    | mk run th =>
      cases th with
      | none => exact ⟨_, _, rfl, rfl⟩
      | some t =>
        cases t with
        | alive => exact ⟨_, _, rfl, rfl⟩
        | finished => exact ⟨_, _, rfl, rfl⟩

/-- C4 counterexample: the Trapezoid-pulse variant applied to a two-element
time vector returns one sample, not two — `DeltaUpDown` iterates only over
`t_mod[:int(len(t_mod)/2)]`, the first half of the input. -/
theorem claim_C4_cex :
    (DeltaUpDown 1 1 0 (1 / 20) [0, 3 / 10]).length = 1 ∧
    ([0, 3 / 10] : List ℚ).length = 2 := by
  constructor
  · decide
  · decide

/-- C4 (amended): the Sine variant returns one sample per time value, sample
`i` corresponding to time `t_i`; the Trapezoid-pulse variant returns
`floor(len(t)/2)` samples, sample `i` corresponding to time `t_i` for
`i < floor(len(t)/2)` (the second half of the input window produces no
samples). -/
theorem claim_C4 :
    (∀ (f off : ℝ) (t : List ℝ),
      (MySin f off t).length = t.length ∧
      ∀ i : ℕ, (MySin f off t)[i]? =
        (t[i]?).map fun x => Real.sin (2 * Real.pi * x * f) + off) ∧
    (∀ (a fr off e : ℚ) (t : List ℚ),
      (DeltaUpDown a fr off e t).length = t.length / 2 ∧
      ∀ i : ℕ, (DeltaUpDown a fr off e t)[i]? =
        ((t.take (t.length / 2))[i]?).map
          fun x => deltaUpDownSample a fr off e (pymod x (1 / fr))) := by
  constructor
  · intro f off t
    exact ⟨by simp [MySin], fun i => by simp [MySin, List.getElem?_map]⟩
  · intro a fr off e t
    have hre : DeltaUpDown a fr off e t =
        (t.take (t.length / 2)).map
          (fun x => deltaUpDownSample a fr off e (pymod x (1 / fr))) := by
      simp only [DeltaUpDown, List.length_map]
      rw [← List.map_take, List.map_map]
      rfl
    constructor
    · rw [hre]
      simp [List.length_take]
      omega
    · intro i
      rw [hre, List.getElem?_map]

end RingBufferSim
